import Mathlib

/-!
Shallow embedding of the indicator / signal / backtest engine of
`src/app.py` (SaurabhMV/price-tracking).

Closing prices are modelled as a `List ℚ`; a pandas column is modelled as a
function from the bar index to `ℚ` (or `Option ℚ` where the column can hold
NaN entries).  Float special values produced by the RSI computation
(`NaN`, `inf`) are modelled explicitly by the type `FV`.
-/

namespace App

/-- Model of an IEEE-754 double as it is used by the RSI pipeline: either a
finite value (modelled exactly as a rational), positive infinity, negative
infinity, or NaN.  The arithmetic below follows IEEE semantics; since `ℚ` has
no signed zero, the single zero behaves as IEEE `+0` (the only zeros arising
in the program are the nonnegative averaged gains/losses, whose zero is `+0`). -/
inductive FV where
  | nan : FV
  | inf : FV
  | ninf : FV
  | fin : ℚ → FV
deriving DecidableEq

/-- IEEE negation on the float model. -/
def FV.neg : FV → FV
  | nan => nan
  | inf => ninf
  | ninf => inf
  | fin a => fin (-a)

/-- IEEE addition on the float model. -/
def FV.add : FV → FV → FV
  | nan, _ => nan
  | _, nan => nan
  | inf, ninf => nan
  | ninf, inf => nan
  | inf, _ => inf
  | _, inf => inf
  | ninf, _ => ninf
  | _, ninf => ninf
  | fin a, fin b => fin (a + b)

/-- IEEE subtraction on the float model. -/
def FV.sub (a b : FV) : FV := a.add b.neg

/-- IEEE division on the float model (dividing by the unsigned rational zero
behaves as division by `+0`). -/
def FV.div : FV → FV → FV
  | nan, _ => nan
  | _, nan => nan
  | inf, inf => nan
  | inf, ninf => nan
  | ninf, inf => nan
  | ninf, ninf => nan
  | inf, fin b => if b < 0 then ninf else inf
  | ninf, fin b => if b < 0 then inf else ninf
  | fin _, inf => fin 0
  | fin _, ninf => fin 0
  | fin a, fin b =>
      if b = 0 then (if a = 0 then nan else if 0 < a then inf else ninf)
      else fin (a / b)

/-- Value of `df['Close'].rolling(window=w).mean()` at index `i` once the
window is full: the arithmetic mean of `c[i+1-w .. i]`
(`df['SMA18']` / `df['SMA50']`, app.py lines 39-40). -/
def smaAt (c : List ℚ) (w i : ℕ) : ℚ :=
  (∑ k ∈ Finset.range w, c.getD (i + 1 - w + k) 0) / (w : ℚ)

/-- The rolling-mean column itself: `none` (NaN) while the window is not yet
full or past the end of the series, the windowed mean otherwise. -/
def sma (c : List ℚ) (w i : ℕ) : Option ℚ :=
  if w ≤ i + 1 ∧ i < c.length then some (smaAt c w i) else none

/-- The column `delta = df['Close'].diff()` (app.py line 44): NaN at index 0
and beyond the series, otherwise the difference with the previous close. -/
def delta (c : List ℚ) (i : ℕ) : Option ℚ :=
  if i = 0 ∨ c.length ≤ i then none
  else some (c.getD i 0 - c.getD (i - 1) 0)

/-- The column `gain = delta.where(delta > 0, 0)` (app.py line 45): keeps the
positive moves, and replaces everything else - including the leading NaN, for
which the comparison is false - by `0`. -/
def gain (c : List ℚ) (i : ℕ) : ℚ :=
  match delta c i with
  | some d => if 0 < d then d else 0
  | none => 0

/-- The column `loss = -delta.where(delta < 0, 0)` (app.py line 46). -/
def loss (c : List ℚ) (i : ℕ) : ℚ :=
  match delta c i with
  | some d => if d < 0 then -d else 0
  | none => 0

/-- Recursive (`adjust=False`) exponentially weighted mean with
`com=13`, i.e. `alpha = 1/14`: `y 0 = x 0`, `y (n+1) = (13 * y n + x (n+1)) / 14`
(app.py lines 47-48). -/
def ewmRec (x : ℕ → ℚ) : ℕ → ℚ
  | 0 => x 0
  | n + 1 => (13 * ewmRec x n + x (n + 1)) / 14

/-- The column `avg_gain = gain.ewm(com=13, adjust=False, min_periods=14).mean()`
(app.py line 47).  The gain series contains no NaN, so `min_periods=14` hides
the output exactly on the first 13 indices. -/
def avgGainF (c : List ℚ) (i : ℕ) : FV :=
  if 13 ≤ i ∧ i < c.length then FV.fin (ewmRec (gain c) i) else FV.nan

/-- The column `avg_loss = loss.ewm(com=13, adjust=False, min_periods=14).mean()`
(app.py line 48). -/
def avgLossF (c : List ℚ) (i : ℕ) : FV :=
  if 13 ≤ i ∧ i < c.length then FV.fin (ewmRec (loss c) i) else FV.nan

/-- The column `rs = avg_gain / avg_loss` (app.py line 49), with IEEE float
division semantics. -/
def rs (c : List ℚ) (i : ℕ) : FV := (avgGainF c i).div (avgLossF c i)

/-- The column `df['RSI'] = 100 - (100 / (1 + rs))` (app.py line 50), with
IEEE float semantics. -/
def rsi (c : List ℚ) (i : ℕ) : FV :=
  (FV.fin 100).sub ((FV.fin 100).div ((FV.fin 1).add (rs c i)))

/-- The column `df['Signal']` (app.py lines 57-59): `0.0` everywhere by
default; when the series has more than 50 bars, entries from index 50 on are
`np.where(df['SMA18'][50:] > df['SMA50'][50:], 1.0, 0.0)` (a comparison
against NaN yields false). -/
def signal (c : List ℚ) (i : ℕ) : ℚ :=
  if 50 < c.length ∧ 50 ≤ i then
    match sma c 18 i, sma c 50 i with
    | some s, some l => if l < s then 1 else 0
    | _, _ => 0
  else 0

/-- The column `df['Position']` (app.py lines 58-62):
`df['Signal'].diff()` when the series has more than 50 bars (NaN at index 0),
and the constant `0` otherwise. -/
def position (c : List ℚ) (i : ℕ) : Option ℚ :=
  if 50 < c.length then
    (if i = 0 then none else some (signal c i - signal c (i - 1)))
  else some 0

/-- Bar indices carrying a buy signal: `df[df['Position'] == 1]`
(app.py lines 99 and 136). -/
def buys (c : List ℚ) : List ℕ :=
  (List.range c.length).filter (fun i => decide (position c i = some 1))

/-- Bar indices carrying a sell signal: `df[df['Position'] == -1]`
(app.py lines 103 and 139). -/
def sells (c : List ℚ) : List ℕ :=
  (List.range c.length).filter (fun i => decide (position c i = some (-1)))

/-- The defined nonzero entries of the `Position` column, in bar order. -/
def sigs (c : List ℚ) : List ℚ :=
  (List.range c.length).filterMap (fun i =>
    match position c i with
    | some p => if p ≠ 0 then some p else none
    | none => none)

/-- The alternating pattern `[1, -1, 1, -1, ...]` of length `n`. -/
def altPattern (n : ℕ) : List ℚ :=
  (List.range n).map (fun j => if j % 2 = 0 then (1 : ℚ) else -1)

/-- Generic form of `sigs`: the nonzero first differences of a sequence `s`
collected over indices `1 ≤ i < n` (index 0 yields the undefined diff). -/
def sigsAux (s : ℕ → ℚ) (n : ℕ) : List ℚ :=
  (List.range n).filterMap (fun i =>
    if i = 0 then none
    else if s i - s (i - 1) ≠ 0 then some (s i - s (i - 1)) else none)

/-- Modelled from the spec's data model (section 3, `TrendState`): `Bullish`
(`true`) when `smaShort > smaLong`, `Bearish` (`false`) otherwise, undefined
while either SMA is undefined.  Used to state the claims about the signal
detector; the program itself never materialises this column. -/
def trendState (c : List ℚ) (i : ℕ) : Option Bool :=
  match sma c 18 i, sma c 50 i with
  | some s, some l => some (l < s)
  | _, _ => none

/-- Whether bar `i` has a defined Bullish trend state. -/
def bullBar (c : List ℚ) (i : ℕ) : Bool :=
  match trendState c i with
  | some b => b
  | none => false

/-- The first bar at which `smaShort` exceeds `smaLong` (both defined) —
the spec's "bar where smaShort first exceeds smaLong". -/
def firstBull (c : List ℚ) : Option ℕ :=
  (List.range c.length).find? (bullBar c)

/-- One row of the dataframe as consumed by the backtest loop
(app.py line 98): its date (modelled as the bar index), its close, and its
`Position` entry (`none` = NaN). -/
structure Row where
  date : ℕ
  close : ℚ
  pos : Option ℚ
deriving DecidableEq

/-- One completed trade as appended by the backtest loop
(app.py lines 106-112). -/
structure Trade where
  buyDate : Option ℕ
  sellDate : ℕ
  buyPrice : ℚ
  sellPrice : ℚ
  profitPct : ℚ
deriving DecidableEq

/-- The mutable state of the backtest loop (app.py lines 93-96):
`trades`, `buy_price`, `buy_date`, `in_position`. -/
structure BTState where
  trades : List Trade
  buyPrice : ℚ
  buyDate : Option ℕ
  inPosition : Bool
deriving DecidableEq

/-- Initial backtest state: `trades = []`, `buy_price = 0`,
`buy_date = None`, `in_position = False` (app.py lines 93-96). -/
def btInit : BTState := ⟨[], 0, none, false⟩

/-- One iteration of the backtest loop (app.py lines 98-113). -/
def btStep (s : BTState) (r : Row) : BTState :=
  if r.pos = some 1 then
    { s with buyPrice := r.close, buyDate := some r.date, inPosition := true }
  else if r.pos = some (-1) ∧ s.inPosition = true then
    { s with
        trades := s.trades ++
          [⟨s.buyDate, r.date, s.buyPrice, r.close,
            (r.close - s.buyPrice) / s.buyPrice * 100⟩],
        inPosition := false }
  else s

/-- The whole backtest loop over a list of rows. -/
def backtest (rows : List Row) : BTState := rows.foldl btStep btInit

/-- The rows the program actually feeds to the backtest loop: one per bar,
with the bar's close and `Position` entry. -/
def rowsOf (c : List ℚ) : List Row :=
  (List.range c.length).map (fun i => ⟨i, c.getD i 0, position c i⟩)

/-- The four summary statistics shown for a nonempty trade ledger
(app.py lines 160-168). -/
structure Summary where
  totalRet : ℚ
  winRate : ℚ
  tradeCount : ℕ
  avgProfit : ℚ
deriving DecidableEq

/-- The backtest results display (app.py lines 160-173): for an empty ledger
the program takes the warning branch ("No completed trades found", modelled
as `none`); otherwise `total_ret = sum`, `win_rate = (profit > 0).mean() * 100`
(a boolean mean, i.e. the indicator sum over the count), the trade count, and
the mean profit. -/
def summarize (trades : List Trade) : Option Summary :=
  if trades.length = 0 then none
  else some
    { totalRet := (trades.map (fun t => t.profitPct)).sum
      winRate :=
        (trades.map (fun t => if 0 < t.profitPct then (1 : ℚ) else 0)).sum /
          (trades.length : ℚ) * 100
      tradeCount := trades.length
      avgProfit := (trades.map (fun t => t.profitPct)).sum / (trades.length : ℚ) }

/-- A concrete strictly increasing 51-bar close series `1, 2, ..., 51`. -/
def c51 : List ℚ := (List.range 51).map (fun k => (k : ℚ) + 1)

/-- A concrete increasing 15-bar close series `1, 2, ..., 15`. -/
def c15 : List ℚ := (List.range 15).map (fun k => (k : ℚ) + 1)

set_option maxRecDepth 100000

/-! General list helpers. -/

theorem filterMap_congr_mem {α β : Type} (f g : α → Option β) :
    ∀ l : List α, (∀ a ∈ l, f a = g a) → l.filterMap f = l.filterMap g := by
  intro l h
  induction l with
  | nil => rfl
  | cons a l ih =>
    simp only [List.filterMap_cons, h a (List.mem_cons_self a l),
      ih (fun b hb => h b (List.mem_cons_of_mem a hb))]

theorem filter_range_eq_single (p : ℕ → Bool) (k : ℕ) :
    ∀ n, k < n → p k = true → (∀ i, i < n → i ≠ k → p i = false) →
      (List.range n).filter p = [k] := by
  intro n
  induction n with
  | zero => omega
  | succ n ih =>
    intro hk hpk hother
    rw [List.range_succ, List.filter_append]
    by_cases hkn : k = n
    · subst hkn
      have h1 : (List.range k).filter p = [] := by
        rw [List.filter_eq_nil_iff]
        intro a ha
        simp [hother a (by have := List.mem_range.mp ha; omega)
          (by have := List.mem_range.mp ha; omega)]
      simp [h1, List.filter_cons, hpk]
    · have h2 : p n = false := hother n (by omega) (fun h => hkn h.symm)
      rw [ih (by omega) hpk (fun i hi hne => hother i (by omega) hne)]
      simp [List.filter_cons, h2]

theorem find_range_eq_some (p : ℕ → Bool) (k : ℕ) :
    ∀ n, k < n → p k = true → (∀ i, i < k → p i = false) →
      (List.range n).find? p = some k := by
  intro n
  induction n with
  | zero => omega
  | succ n ih =>
    intro hk hpk hlt
    rw [List.range_succ, List.find?_append]
    by_cases hkn : k = n
    · subst hkn
      have h1 : (List.range k).find? p = none := by
        rw [List.find?_eq_none]
        intro x hx
        simp [hlt x (List.mem_range.mp hx)]
      rw [h1]
      simp [List.find?, hpk]
    · rw [ih (by omega) hpk hlt]
      rfl

/-! Basic facts about the signal and position columns. -/

theorem signal_eq_zero_or_one (c : List ℚ) (i : ℕ) : signal c i = 0 ∨ signal c i = 1 := by
  unfold signal
  split
  · split
    · split
      · right; rfl
      · left; rfl
    · left; rfl
  · left; rfl

theorem signal_eq_zero_of_lt (c : List ℚ) (i : ℕ) (h : i < 50) : signal c i = 0 := by
  unfold signal
  rw [if_neg]
  rintro ⟨-, h2⟩
  omega

theorem signal_eq_cmp (c : List ℚ) (i : ℕ) (hlen : 50 < c.length) (h50 : 50 ≤ i)
    (hi : i < c.length) :
    signal c i = if smaAt c 50 i < smaAt c 18 i then 1 else 0 := by
  unfold signal sma
  rw [if_pos ⟨hlen, h50⟩, if_pos ⟨by omega, hi⟩, if_pos ⟨by omega, hi⟩]

theorem position_eq_diff (c : List ℚ) (i : ℕ) (hlen : 50 < c.length) (hi : 1 ≤ i) :
    position c i = some (signal c i - signal c (i - 1)) := by
  unfold position
  rw [if_pos hlen, if_neg (by omega)]

/-- C5: for a series shorter than 50 bars every `SMA50` entry is undefined and
there are no buy or sell events; the insufficient-data condition surfaces only
as undefined values and empty lists (every function involved is total). -/
theorem smaLong_undefined_and_no_events_of_short (c : List ℚ) (hshort : c.length < 50) :
    (∀ i, sma c 50 i = none) ∧ buys c = [] ∧ sells c = [] := by
  have hzero : ∀ a, position c a = some 0 := by
    intro a
    unfold position
    rw [if_neg (by omega)]
  refine ⟨fun i => ?_, ?_, ?_⟩
  · unfold sma
    rw [if_neg]
    rintro ⟨h1, h2⟩
    omega
  · unfold buys
    rw [List.filter_eq_nil_iff]
    intro a _
    simp only [hzero a, decide_eq_true_eq, Option.some.injEq]
    norm_num
  · unfold sells
    rw [List.filter_eq_nil_iff]
    intro a _
    simp only [hzero a, decide_eq_true_eq, Option.some.injEq]
    norm_num

/-- C5 witness: the three-bar series `[1, 2, 3]`. -/
theorem smaLong_undefined_and_no_events_of_short_witness :
    sma [(1 : ℚ), 2, 3] 50 0 = none ∧ buys [(1 : ℚ), 2, 3] = [] ∧
      sells [(1 : ℚ), 2, 3] = [] :=
  ⟨(smaLong_undefined_and_no_events_of_short [(1 : ℚ), 2, 3] (by decide)).1 0,
   (smaLong_undefined_and_no_events_of_short [(1 : ℚ), 2, 3] (by decide)).2.1,
   (smaLong_undefined_and_no_events_of_short [(1 : ℚ), 2, 3] (by decide)).2.2⟩

/-! Backtest loop invariants. -/

theorem btStep_buy (s : BTState) (r : Row) (hr : r.pos = some 1) :
    btStep s r = { s with buyPrice := r.close, buyDate := some r.date, inPosition := true } := by
  unfold btStep
  rw [if_pos hr]

theorem btStep_sell_flat (s : BTState) (r : Row) (hr : r.pos = some (-1))
    (hflat : s.inPosition = false) : btStep s r = s := by
  unfold btStep
  rw [if_neg (by rw [hr]; intro h; rw [Option.some.injEq] at h; norm_num at h),
    if_neg (by rw [hflat]; rintro ⟨-, h⟩; cases h)]

theorem backtest_profit_inv (rows : List Row) :
    ∀ s : BTState,
      (∀ t ∈ s.trades, t.profitPct = (t.sellPrice - t.buyPrice) / t.buyPrice * 100) →
      ∀ t ∈ (rows.foldl btStep s).trades,
        t.profitPct = (t.sellPrice - t.buyPrice) / t.buyPrice * 100 := by
  induction rows with
  | nil => intro s hs; exact hs
  | cons r rows ih =>
    intro s hs
    rw [List.foldl_cons]
    apply ih
    unfold btStep
    split
    · exact hs
    · split
      · intro t ht
        rcases List.mem_append.mp ht with h | h
        · exact hs t h
        · rw [List.mem_singleton.mp h]
      · exact hs

theorem backtest_price_inv (rows : List Row) (hrows : ∀ r ∈ rows, 0 < r.close) :
    ∀ s : BTState, (∀ t ∈ s.trades, 0 < t.buyPrice) → (s.inPosition = true → 0 < s.buyPrice) →
      (∀ t ∈ (rows.foldl btStep s).trades, 0 < t.buyPrice) ∧
      ((rows.foldl btStep s).inPosition = true → 0 < (rows.foldl btStep s).buyPrice) := by
  induction rows with
  | nil => intro s h1 h2; exact ⟨h1, h2⟩
  | cons r rows ih =>
    intro s h1 h2
    have hr : 0 < r.close := hrows r (List.mem_cons_self r rows)
    have hrest : ∀ x ∈ rows, 0 < x.close :=
      fun x hx => hrows x (List.mem_cons_of_mem r hx)
    rw [List.foldl_cons]
    have := ih hrest
    apply this
    · unfold btStep
      split
      · exact h1
      · split
        · intro t ht
          rcases List.mem_append.mp ht with h | h
          · exact h1 t h
          · rw [List.mem_singleton.mp h]
            next _ hcond => exact h2 hcond.2
        · exact h1
    · unfold btStep
      split
      · intro _; exact hr
      · split
        · intro hfalse; cases hfalse
        · exact h2

/-- C2 counterexample: the backtest loop receives a second `BuyCross` while
already long; the state stays long but the recorded entry price moves from
`10` to `20` and the entry date from `0` to `1`, so the event is not ignored. -/
theorem buy_while_long_overwrites_entry :
    (backtest [⟨0, 10, some 1⟩]).inPosition = true ∧
    (backtest [⟨0, 10, some 1⟩]).buyPrice = 10 ∧
    (backtest [⟨0, 10, some 1⟩]).buyDate = some 0 ∧
    (backtest [⟨0, 10, some 1⟩, ⟨1, 20, some 1⟩]).inPosition = true ∧
    (backtest [⟨0, 10, some 1⟩, ⟨1, 20, some 1⟩]).buyPrice = 20 ∧
    (backtest [⟨0, 10, some 1⟩, ⟨1, 20, some 1⟩]).buyDate = some 1 ∧
    (10 : ℚ) ≠ 20 := by
  refine ⟨rfl, rfl, rfl, rfl, rfl, rfl, by norm_num⟩

/-- C2 amended: a `BuyCross` received while already long keeps the state long
and appends no trade, but it overwrites the recorded entry price and entry
time with the current bar's close and date. -/
theorem buy_while_long_keeps_long_updates_entry (s : BTState) (r : Row)
    (_hlong : s.inPosition = true) (hbuy : r.pos = some 1) :
    (btStep s r).inPosition = true ∧ (btStep s r).trades = s.trades ∧
    (btStep s r).buyPrice = r.close ∧ (btStep s r).buyDate = some r.date := by
  unfold btStep
  rw [if_pos hbuy]
  exact ⟨rfl, rfl, rfl, rfl⟩

/-- C2 witness: a long state receiving a buy row. -/
theorem buy_while_long_keeps_long_updates_entry_witness :
    (btStep ⟨[], 5, some 0, true⟩ ⟨3, 7, some 1⟩).inPosition = true ∧
    (btStep ⟨[], 5, some 0, true⟩ ⟨3, 7, some 1⟩).trades = [] ∧
    (btStep ⟨[], 5, some 0, true⟩ ⟨3, 7, some 1⟩).buyPrice = 7 ∧
    (btStep ⟨[], 5, some 0, true⟩ ⟨3, 7, some 1⟩).buyDate = some 3 :=
  buy_while_long_keeps_long_updates_entry ⟨[], 5, some 0, true⟩ ⟨3, 7, some 1⟩ rfl rfl

/-- C4: every ledger entry satisfies the profit formula
`profitPct = (sellPrice - buyPrice) / buyPrice * 100`; a trailing `BuyCross`
appended to any row list leaves the ledger unchanged (an open position is
never added), and a `SellCross` arriving while flat appends nothing. -/
theorem ledger_only_closed_pairs (rows : List Row) :
    (∀ t ∈ (backtest rows).trades,
        t.profitPct = (t.sellPrice - t.buyPrice) / t.buyPrice * 100) ∧
    (∀ r : Row, r.pos = some 1 →
        (backtest (rows ++ [r])).trades = (backtest rows).trades) ∧
    (∀ r : Row, r.pos = some (-1) → (backtest rows).inPosition = false →
        (backtest (rows ++ [r])).trades = (backtest rows).trades) := by
  refine ⟨backtest_profit_inv rows btInit (by intro t ht; cases ht), ?_, ?_⟩
  · intro r hr
    unfold backtest
    rw [List.foldl_concat, btStep_buy _ _ hr]
  · intro r hr hflat
    unfold backtest at hflat ⊢
    rw [List.foldl_concat, btStep_sell_flat _ _ hr hflat]

/-- C4 witness: one closed trade, then a trailing buy and a sell-while-flat. -/
theorem ledger_only_closed_pairs_witness :
    ((⟨some 0, 1, 10, 15, 50⟩ : Trade).profitPct =
      ((⟨some 0, 1, 10, 15, 50⟩ : Trade).sellPrice -
        (⟨some 0, 1, 10, 15, 50⟩ : Trade).buyPrice) /
          (⟨some 0, 1, 10, 15, 50⟩ : Trade).buyPrice * 100) ∧
    (backtest ([⟨0, 10, some 1⟩, ⟨1, 15, some (-1)⟩] ++ [⟨2, 20, some 1⟩])).trades =
      (backtest [⟨0, 10, some 1⟩, ⟨1, 15, some (-1)⟩]).trades ∧
    (backtest ([⟨0, 10, some 1⟩, ⟨1, 15, some (-1)⟩] ++ [⟨2, 7, some (-1)⟩])).trades =
      (backtest [⟨0, 10, some 1⟩, ⟨1, 15, some (-1)⟩]).trades := by
  refine ⟨(ledger_only_closed_pairs [⟨0, 10, some 1⟩, ⟨1, 15, some (-1)⟩]).1 _ ?_,
    (ledger_only_closed_pairs [⟨0, 10, some 1⟩, ⟨1, 15, some (-1)⟩]).2.1 _ rfl,
    (ledger_only_closed_pairs [⟨0, 10, some 1⟩, ⟨1, 15, some (-1)⟩]).2.2 _ rfl ?_⟩
  · show _ ∈ (backtest [⟨0, 10, some 1⟩, ⟨1, 15, some (-1)⟩]).trades
    norm_num [backtest, btStep, btInit]
  · norm_num [backtest, btStep, btInit]

/-- C10: on a series whose closes are all positive, every profit division in
the backtest loop has a positive denominator (each recorded trade's buy price
is positive, and the open position's buy price is positive whenever the loop
is in a position), so the loop never divides by zero. -/
theorem division_safe_on_positive_series (c : List ℚ) (hpos : ∀ x ∈ c, 0 < x) :
    (∀ t ∈ (backtest (rowsOf c)).trades, 0 < t.buyPrice) ∧
    ((backtest (rowsOf c)).inPosition = true → 0 < (backtest (rowsOf c)).buyPrice) := by
  have hrows : ∀ r ∈ rowsOf c, 0 < r.close := by
    intro r hr
    unfold rowsOf at hr
    obtain ⟨i, hi, rfl⟩ := List.mem_map.mp hr
    have hi' := List.mem_range.mp hi
    show 0 < c.getD i 0
    rw [List.getD_eq_getElem c 0 hi']
    exact hpos _ (List.getElem_mem hi')
  exact backtest_price_inv (rowsOf c) hrows btInit (by intro t ht; cases ht)
    (by intro h; cases h)

attribute [local semireducible] Rat.add Rat.mul Rat.inv Rat.sub in
/-- C10 witness: the strictly increasing 51-bar series leaves the loop long at
bar 50 with a positive recorded buy price. -/
theorem division_safe_on_positive_series_witness :
    (backtest (rowsOf c51)).inPosition = true ∧ 0 < (backtest (rowsOf c51)).buyPrice :=
  ⟨by decide, (division_safe_on_positive_series c51 (by decide)).2 (by decide)⟩

/-! Performance aggregation. -/

theorem indicator_sum_eq_filter_length (ts : List Trade) :
    (ts.map (fun t => if 0 < t.profitPct then (1 : ℚ) else 0)).sum =
      ((ts.filter (fun t => decide (0 < t.profitPct))).length : ℚ) := by
  induction ts with
  | nil => simp
  | cons t ts ih =>
    by_cases h : 0 < t.profitPct <;>
      simp [List.filter_cons, h, ih] <;> push_cast <;> ring

/-- C6: the aggregation over a nonempty closed-trade ledger reports the sum of
`profitPct` as total return, the fraction of winning trades (scaled to
percent, as displayed with a percent sign) as win rate, the ledger length as
trade count and the mean `profitPct` as average profit; an empty ledger
produces the defined no-trades result instead of any division. -/
theorem performance_summary_formulas (trades : List Trade) :
    (trades = [] → summarize trades = none) ∧
    (trades ≠ [] → summarize trades = some
      { totalRet := (trades.map (fun t => t.profitPct)).sum
        winRate := ((trades.filter (fun t => decide (0 < t.profitPct))).length : ℚ) /
            (trades.length : ℚ) * 100
        tradeCount := trades.length
        avgProfit := (trades.map (fun t => t.profitPct)).sum / (trades.length : ℚ) }) := by
  constructor
  · intro h
    subst h
    rfl
  · intro h
    unfold summarize
    rw [if_neg (by simpa using h), indicator_sum_eq_filter_length]

attribute [local semireducible] Rat.add Rat.mul Rat.inv Rat.sub in
/-- C6 witness: the empty ledger and a two-trade ledger with one winner. -/
theorem performance_summary_formulas_witness :
    summarize ([] : List Trade) = none ∧
    summarize [⟨some 0, 1, 10, 15, 50⟩, ⟨some 2, 3, 10, 9, -10⟩] = some ⟨40, 50, 2, 20⟩ := by
  refine ⟨(performance_summary_formulas []).1 rfl, ?_⟩
  rw [(performance_summary_formulas [⟨some 0, 1, 10, 15, 50⟩, ⟨some 2, 3, 10, 9, -10⟩]).2
    (by simp)]
  decide

/-! RSI pipeline. -/

theorem ewmRec_nonneg (x : ℕ → ℚ) (hx : ∀ i, 0 ≤ x i) : ∀ n, 0 ≤ ewmRec x n := by
  intro n
  induction n with
  | zero => simpa [ewmRec] using hx 0
  | succ n ih =>
    unfold ewmRec
    have := hx (n + 1)
    apply div_nonneg _ (by norm_num)
    linarith

theorem gain_nonneg (c : List ℚ) (i : ℕ) : 0 ≤ gain c i := by
  unfold gain
  cases delta c i with
  | none => exact le_refl 0
  | some d =>
    show 0 ≤ if 0 < d then d else 0
    by_cases h : 0 < d
    · rw [if_pos h]; exact le_of_lt h
    · rw [if_neg h]

theorem loss_nonneg (c : List ℚ) (i : ℕ) : 0 ≤ loss c i := by
  unfold loss
  cases delta c i with
  | none => exact le_refl 0
  | some d =>
    show 0 ≤ if d < 0 then -d else 0
    by_cases h : d < 0
    · rw [if_pos h]; linarith
    · rw [if_neg h]

theorem rsiFV_nan_of_zero_zero :
    (FV.fin 100).sub ((FV.fin 100).div ((FV.fin 1).add ((FV.fin 0).div (FV.fin 0)))) =
      FV.nan := rfl

theorem rsiFV_hundred_of_pos (g : ℚ) (hg : 0 < g) :
    (FV.fin 100).sub ((FV.fin 100).div ((FV.fin 1).add ((FV.fin g).div (FV.fin 0)))) =
      FV.fin 100 := by
  have h1 : (FV.fin g).div (FV.fin 0) = FV.inf := by
    show (if (0 : ℚ) = 0 then (if g = 0 then FV.nan else if 0 < g then FV.inf else FV.ninf)
      else FV.fin (g / 0)) = FV.inf
    rw [if_pos rfl, if_neg (ne_of_gt hg), if_pos hg]
  rw [h1]
  show FV.fin (100 + -0) = FV.fin 100
  exact congrArg FV.fin (by norm_num)

theorem rsiFV_formula_of_pos (g l : ℚ) (hg : 0 ≤ g) (hl : 0 < l) :
    (FV.fin 100).sub ((FV.fin 100).div ((FV.fin 1).add ((FV.fin g).div (FV.fin l)))) =
      FV.fin (100 - 100 / (1 + g / l)) := by
  have hr : 0 ≤ g / l := div_nonneg hg (le_of_lt hl)
  have h1 : (FV.fin g).div (FV.fin l) = FV.fin (g / l) := by
    show (if l = 0 then (if g = 0 then FV.nan else if 0 < g then FV.inf else FV.ninf)
      else FV.fin (g / l)) = FV.fin (g / l)
    rw [if_neg (ne_of_gt hl)]
  rw [h1]
  have h3 : (FV.fin 100).div (FV.fin (1 + g / l)) = FV.fin (100 / (1 + g / l)) := by
    show (if 1 + g / l = 0 then
        (if (100 : ℚ) = 0 then FV.nan else if (0 : ℚ) < 100 then FV.inf else FV.ninf)
      else FV.fin (100 / (1 + g / l))) = FV.fin (100 / (1 + g / l))
    rw [if_neg (by positivity)]
  show (FV.fin 100).sub ((FV.fin 100).div (FV.fin (1 + g / l))) = _
  rw [h3]
  show FV.fin (100 + -(100 / (1 + g / l))) = FV.fin (100 - 100 / (1 + g / l))
  exact congrArg FV.fin (by ring)

/-- C3: whenever the smoothed average loss is zero, the RSI entry is NaN if
the smoothed average gain is also zero (flat run) and exactly 100 if the
average gain is positive; the division never raises (the whole pipeline is a
total function into the float model). -/
theorem rsi_flat_run_and_pure_gain (c : List ℚ) (i : ℕ)
    (hL : avgLossF c i = FV.fin 0) :
    (avgGainF c i = FV.fin 0 → rsi c i = FV.nan) ∧
    (∀ g, avgGainF c i = FV.fin g → 0 < g → rsi c i = FV.fin 100) := by
  constructor
  · intro hG
    unfold rsi rs
    rw [hL, hG]
    exact rsiFV_nan_of_zero_zero
  · intro g hG hg
    unfold rsi rs
    rw [hL, hG]
    exact rsiFV_hundred_of_pos g hg

attribute [local semireducible] Rat.add Rat.mul Rat.inv Rat.sub in
/-- C3 witness: a flat 15-bar series at price 5 gives a NaN RSI at bar 13. -/
theorem rsi_flat_run_and_pure_gain_witness :
    avgLossF (List.replicate 15 (5 : ℚ)) 13 = FV.fin 0 ∧
    avgGainF (List.replicate 15 (5 : ℚ)) 13 = FV.fin 0 ∧
    rsi (List.replicate 15 (5 : ℚ)) 13 = FV.nan :=
  ⟨by decide, by decide,
    (rsi_flat_run_and_pure_gain (List.replicate 15 (5 : ℚ)) 13 (by decide)).1 (by decide)⟩

/-- C7: every defined (finite) RSI entry lies in the closed interval
`[0, 100]`, on an arbitrary series. -/
theorem rsi_bounded (c : List ℚ) (i : ℕ) (q : ℚ) (h : rsi c i = FV.fin q) :
    0 ≤ q ∧ q ≤ 100 := by
  unfold rsi rs at h
  by_cases hdef : 13 ≤ i ∧ i < c.length
  · unfold avgGainF avgLossF at h
    rw [if_pos hdef, if_pos hdef] at h
    have hG : 0 ≤ ewmRec (gain c) i := ewmRec_nonneg _ (gain_nonneg c) i
    have hL : 0 ≤ ewmRec (loss c) i := ewmRec_nonneg _ (loss_nonneg c) i
    by_cases hL0 : ewmRec (loss c) i = 0
    · rw [hL0] at h
      by_cases hG0 : ewmRec (gain c) i = 0
      · rw [hG0, rsiFV_nan_of_zero_zero] at h
        cases h
      · rw [rsiFV_hundred_of_pos _ (lt_of_le_of_ne hG (Ne.symm hG0))] at h
        obtain rfl : (100 : ℚ) = q := FV.fin.inj h
        norm_num
    · have hLpos : 0 < ewmRec (loss c) i := lt_of_le_of_ne hL (Ne.symm hL0)
      rw [rsiFV_formula_of_pos _ _ hG hLpos] at h
      obtain rfl : 100 - 100 / (1 + ewmRec (gain c) i / ewmRec (loss c) i) = q :=
        FV.fin.inj h
      have hr : 0 ≤ ewmRec (gain c) i / ewmRec (loss c) i := div_nonneg hG hL
      constructor
      · have hle : 100 / (1 + ewmRec (gain c) i / ewmRec (loss c) i) ≤ 100 :=
          div_le_self (by norm_num) (by linarith)
        linarith
      · have hpos : 0 ≤ 100 / (1 + ewmRec (gain c) i / ewmRec (loss c) i) := by positivity
        linarith
  · unfold avgGainF avgLossF at h
    rw [if_neg hdef, if_neg hdef] at h
    exact FV.noConfusion (h : FV.nan = FV.fin q)
attribute [local semireducible] Rat.add Rat.mul Rat.inv Rat.sub in
/-- C7 witness: the increasing 15-bar series has a defined RSI of 100 at bar
13, which indeed lies in the bounds. -/
theorem rsi_bounded_witness :
    rsi c15 13 = FV.fin 100 ∧ (0 ≤ (100 : ℚ) ∧ (100 : ℚ) ≤ 100) :=
  ⟨by decide, rsi_bounded c15 13 100 (by decide)⟩

/-! Alternation of the position signals. -/

theorem altPattern_succ (n : ℕ) :
    altPattern (n + 1) = altPattern n ++ [if n % 2 = 0 then (1 : ℚ) else -1] := by
  unfold altPattern
  rw [List.range_succ, List.map_append]
  rfl

theorem sigsAux_succ (s : ℕ → ℚ) (n : ℕ) (hn : 1 ≤ n) :
    sigsAux s (n + 1) = sigsAux s n ++
      (if s n - s (n - 1) ≠ 0 then [s n - s (n - 1)] else []) := by
  unfold sigsAux
  rw [List.range_succ, List.filterMap_append]
  congr 1
  have hne : ¬ n = 0 := by omega
  by_cases hd : s n - s (n - 1) ≠ 0
  · simp only [List.filterMap_cons, List.filterMap_nil, if_neg hne, if_pos hd]
  · simp only [List.filterMap_cons, List.filterMap_nil, if_neg hne, if_neg hd]

theorem sigsAux_spec (s : ℕ → ℚ) (hs : ∀ i, s i = 0 ∨ s i = 1) (h0 : s 0 = 0) :
    ∀ n, sigsAux s n = altPattern (sigsAux s n).length ∧
      (∀ m, n = m + 1 → s m = (if (sigsAux s n).length % 2 = 0 then 0 else 1)) := by
  intro n
  induction n with
  | zero => exact ⟨rfl, fun m hm => by omega⟩
  | succ n ih =>
    rcases Nat.eq_zero_or_pos n with hn | hn
    · subst hn
      have h1 : sigsAux s 1 = [] := rfl
      refine ⟨by rw [h1]; rfl, ?_⟩
      intro m hm
      have : m = 0 := by omega
      subst this
      rw [h1, h0]
      rfl
    · obtain ⟨ih1, ih2⟩ := ih
      have hprev := ih2 (n - 1) (by omega)
      rw [sigsAux_succ s n hn]
      by_cases hpar : (sigsAux s n).length % 2 = 0
      · have hp0 : s (n - 1) = 0 := by rw [hprev, if_pos hpar]
        rcases hs n with hn0 | hn1
        · have hd : ¬ s n - s (n - 1) ≠ 0 := by
            rw [hn0, hp0]
            norm_num
          rw [if_neg hd, List.append_nil]
          refine ⟨ih1, ?_⟩
          intro m hm
          have : m = n := by omega
          subst this
          rw [if_pos hpar, hn0]
        · have hd : s n - s (n - 1) = 1 := by rw [hn1, hp0]; ring
          have hne : s n - s (n - 1) ≠ 0 := by rw [hd]; norm_num
          rw [if_pos hne, hd]
          constructor
          · rw [List.length_append, List.length_singleton, altPattern_succ, ← ih1,
              if_pos hpar]
          · intro m hm
            have : m = n := by omega
            subst this
            rw [List.length_append, List.length_singleton,
              if_neg (by omega), hn1]
      · have hp1 : s (n - 1) = 1 := by rw [hprev, if_neg hpar]
        rcases hs n with hn0 | hn1
        · have hd : s n - s (n - 1) = -1 := by rw [hn0, hp1]; ring
          have hne : s n - s (n - 1) ≠ 0 := by rw [hd]; norm_num
          rw [if_pos hne, hd]
          constructor
          · rw [List.length_append, List.length_singleton, altPattern_succ, ← ih1,
              if_neg hpar]
          · intro m hm
            have : m = n := by omega
            subst this
            rw [List.length_append, List.length_singleton,
              if_pos (by omega), hn0]
        · have hd : ¬ s n - s (n - 1) ≠ 0 := by
            rw [hn1, hp1]
            norm_num
          rw [if_neg hd, List.append_nil]
          refine ⟨ih1, ?_⟩
          intro m hm
          have : m = n := by omega
          subst this
          rw [if_neg hpar, hn1]

theorem sigs_eq_sigsAux (c : List ℚ) (h : 50 < c.length) :
    sigs c = sigsAux (signal c) c.length := by
  unfold sigs sigsAux
  apply filterMap_congr_mem
  intro i _
  have hp : position c i = if i = 0 then none else some (signal c i - signal c (i - 1)) := by
    unfold position
    rw [if_pos h]
  rw [hp]
  by_cases h0 : i = 0
  · rw [if_pos h0, if_pos h0]
  · rw [if_neg h0, if_neg h0]

/-- C9: the defined nonzero entries of the `Position` column always form the
strictly alternating pattern `1, -1, 1, -1, ...`; in particular the first
nonzero entry, if any, is `+1`, so a sell signal never precedes the first buy
signal and equal signals never repeat without the opposite one in between. -/
theorem position_signals_alternate (c : List ℚ) :
    sigs c = altPattern (sigs c).length := by
  by_cases h : 50 < c.length
  · rw [sigs_eq_sigsAux c h]
    exact (sigsAux_spec (signal c) (signal_eq_zero_or_one c)
      (signal_eq_zero_of_lt c 0 (by norm_num)) c.length).1
  · have hnil : sigs c = [] := by
      unfold sigs
      rw [List.filterMap_eq_nil_iff]
      intro a _
      have hp : position c a = some 0 := by
        unfold position
        rw [if_neg h]
      rw [hp]
      norm_num
    rw [hnil]
    rfl

/-! The crossover detector on strictly increasing series. -/

theorem sma_window_lt (c : List ℚ)
    (hinc : ∀ j, j < c.length → ∀ i, i < j → c.getD i 0 < c.getD j 0)
    (i : ℕ) (h49 : 49 ≤ i) (hi : i < c.length) : smaAt c 50 i < smaAt c 18 i := by
  unfold smaAt
  rw [div_lt_div_iff₀ (by norm_num) (by norm_num)]
  have hsplit : (∑ k ∈ Finset.range 50, c.getD (i + 1 - 50 + k) 0) =
      (∑ k ∈ Finset.range 32, c.getD (i + 1 - 50 + k) 0) +
      (∑ k ∈ Finset.range 18, c.getD (i + 1 - 18 + k) 0) := by
    have h5032 : (50 : ℕ) = 32 + 18 := by norm_num
    rw [h5032, Finset.sum_range_add]
    congr 1
    apply Finset.sum_congr rfl
    intro k _
    congr 1
    omega
  have h32 : (∑ k ∈ Finset.range 32, c.getD (i + 1 - 50 + k) 0) <
      32 * c.getD (i + 1 - 18) 0 := by
    have hlt : (∑ k ∈ Finset.range 32, c.getD (i + 1 - 50 + k) 0) <
        ∑ _k ∈ Finset.range 32, c.getD (i + 1 - 18) 0 := by
      apply Finset.sum_lt_sum_of_nonempty ⟨0, Finset.mem_range.mpr (by norm_num)⟩
      intro k hk
      have hk' := Finset.mem_range.mp hk
      exact hinc (i + 1 - 18) (by omega) (i + 1 - 50 + k) (by omega)
    rw [Finset.sum_const, Finset.card_range, nsmul_eq_mul] at hlt
    exact_mod_cast hlt
  have h18 : 18 * c.getD (i + 1 - 18) 0 ≤
      (∑ k ∈ Finset.range 18, c.getD (i + 1 - 18 + k) 0) := by
    have hle : (∑ _k ∈ Finset.range 18, c.getD (i + 1 - 18) 0) ≤
        ∑ k ∈ Finset.range 18, c.getD (i + 1 - 18 + k) 0 := by
      apply Finset.sum_le_sum
      intro k hk
      have hk' := Finset.mem_range.mp hk
      rcases Nat.eq_zero_or_pos k with h0 | h0
      · subst h0
        simp
      · exact le_of_lt (hinc (i + 1 - 18 + k) (by omega) (i + 1 - 18) (by omega))
    rw [Finset.sum_const, Finset.card_range, nsmul_eq_mul] at hle
    exact_mod_cast hle
  rw [hsplit, show ((18 : ℕ) : ℚ) = 18 from by norm_num,
    show ((50 : ℕ) : ℚ) = 50 from by norm_num]
  linarith

theorem signal_one_of_inc (c : List ℚ)
    (hinc : ∀ j, j < c.length → ∀ i, i < j → c.getD i 0 < c.getD j 0)
    (hlen : 50 < c.length) (i : ℕ) (h50 : 50 ≤ i) (hi : i < c.length) :
    signal c i = 1 := by
  rw [signal_eq_cmp c i hlen h50 hi, if_pos (sma_window_lt c hinc i (by omega) hi)]

theorem position_char_of_inc (c : List ℚ)
    (hinc : ∀ j, j < c.length → ∀ i, i < j → c.getD i 0 < c.getD j 0)
    (hlen : 50 < c.length) (i : ℕ) (hi : i < c.length) :
    position c i = if i = 0 then none else if i = 50 then some 1 else some 0 := by
  by_cases h0 : i = 0
  · subst h0
    unfold position
    rw [if_pos hlen, if_pos rfl, if_pos rfl]
  · rw [position_eq_diff c i hlen (by omega), if_neg h0]
    rcases lt_trichotomy i 50 with hlt | heq | hgt
    · rw [signal_eq_zero_of_lt c i hlt, signal_eq_zero_of_lt c (i - 1) (by omega),
        if_neg (by omega)]
      norm_num
    · subst heq
      rw [signal_one_of_inc c hinc hlen 50 (le_refl 50) hi,
        signal_eq_zero_of_lt c 49 (by norm_num), if_pos rfl]
      norm_num
    · rw [signal_one_of_inc c hinc hlen i (by omega) hi,
        signal_one_of_inc c hinc hlen (i - 1) (by omega) (by omega),
        if_neg (by omega)]
      norm_num

theorem sma_defined (c : List ℚ) (w i : ℕ) (h : w ≤ i + 1) (hi : i < c.length) :
    sma c w i = some (smaAt c w i) := by
  unfold sma
  rw [if_pos ⟨h, hi⟩]

theorem sma_undefined_of_short_window (c : List ℚ) (w i : ℕ) (h : i + 1 < w) :
    sma c w i = none := by
  unfold sma
  rw [if_neg]
  rintro ⟨h1, -⟩
  omega

theorem bullBar_iff_of_inc (c : List ℚ)
    (hinc : ∀ j, j < c.length → ∀ i, i < j → c.getD i 0 < c.getD j 0)
    (i : ℕ) (hi : i < c.length) : bullBar c i = true ↔ 49 ≤ i := by
  by_cases h49 : 49 ≤ i
  · unfold bullBar trendState
    rw [sma_defined c 18 i (by omega) hi, sma_defined c 50 i (by omega) hi]
    simp [sma_window_lt c hinc i h49 hi, h49]
  · unfold bullBar trendState
    rw [sma_undefined_of_short_window c 50 i (by omega)]
    cases sma c 18 i <;> simp [h49]

/-- C8 amended: on a strictly increasing series with more than 50 bars,
exactly one buy signal is emitted — but at bar 50, one bar after bar 49, the
first bar at which both SMAs are defined and `smaShort` already exceeds
`smaLong` — and no sell signal is ever emitted.  (A strictly increasing series
of exactly 50 bars, although long enough for both SMAs to be defined, emits no
event at all because the detector only fills bars from index 50 on.) -/
theorem monotone_single_buy_at_50 (c : List ℚ)
    (hinc : ∀ j, j < c.length → ∀ i, i < j → c.getD i 0 < c.getD j 0)
    (hlen : 50 < c.length) :
    buys c = [50] ∧ sells c = [] ∧ firstBull c = some 49 := by
  refine ⟨?_, ?_, ?_⟩
  · apply filter_range_eq_single _ 50 c.length hlen
    · rw [decide_eq_true_eq, position_char_of_inc c hinc hlen 50 hlen]
      norm_num
    · intro i hi hne
      rw [decide_eq_false_iff_not, position_char_of_inc c hinc hlen i hi]
      by_cases h0 : i = 0
      · rw [if_pos h0]
        exact fun h => Option.noConfusion h
      · rw [if_neg h0, if_neg hne]
        intro h
        rw [Option.some.injEq] at h
        norm_num at h
  · unfold sells
    rw [List.filter_eq_nil_iff]
    intro a ha
    have ha' := List.mem_range.mp ha
    rw [Bool.not_eq_true, decide_eq_false_iff_not,
      position_char_of_inc c hinc hlen a ha']
    by_cases h0 : a = 0
    · rw [if_pos h0]
      exact fun h => Option.noConfusion h
    · rw [if_neg h0]
      by_cases h50 : a = 50
      · rw [if_pos h50]
        intro h
        rw [Option.some.injEq] at h
        norm_num at h
      · rw [if_neg h50]
        intro h
        rw [Option.some.injEq] at h
        norm_num at h
  · apply find_range_eq_some _ 49 c.length (by omega)
    · exact (bullBar_iff_of_inc c hinc 49 (by omega)).mpr (le_refl 49)
    · intro i hi
      rw [Bool.eq_false_iff]
      intro h
      have := (bullBar_iff_of_inc c hinc i (by omega)).mp h
      omega

attribute [local semireducible] Rat.add Rat.mul Rat.inv Rat.sub in
/-- C8 witness: the strictly increasing series `1, ..., 51`. -/
theorem monotone_single_buy_at_50_witness :
    buys c51 = [50] ∧ sells c51 = [] ∧ firstBull c51 = some 49 :=
  monotone_single_buy_at_50 c51 (by decide) (by decide)

attribute [local semireducible] Rat.add Rat.mul Rat.inv Rat.sub in
/-- C8 counterexample: on the strictly increasing series `1, ..., 51` the
single buy signal is emitted at bar 50, but the bar at which `smaShort` first
exceeds `smaLong` is bar 49, so the buy event does NOT occur at the first
crossing bar claimed. -/
theorem monotone_buy_misses_first_exceed :
    buys c51 = [50] ∧ firstBull c51 = some 49 ∧ (50 : ℕ) ≠ 49 := by
  refine ⟨by decide, by decide, by omega⟩

/-- C1 amended: the detector does not classify the first bar at which both
SMAs are defined (bar 49) by the SMA comparison — its state is hard-coded
`0` (Bearish) there, like every earlier bar; from bar 50 on the state is the
direct comparison, and each change of consecutive state values emits exactly
one event, `+1` (`BuyCross`) on entering state `1` (Bullish) and `-1`
(`SellCross`) on entering state `0` (Bearish).  Consequently a `BuyCross` can
be emitted at bar 50 without any flip of the SMA comparison. -/
theorem detector_forced_initial_state (c : List ℚ) (hlen : 50 < c.length) :
    signal c 49 = 0 ∧
    (∀ i, 50 ≤ i → i < c.length →
      signal c i = if smaAt c 50 i < smaAt c 18 i then 1 else 0) ∧
    (∀ i, 1 ≤ i →
      ((position c i = some 1 ↔ signal c (i - 1) = 0 ∧ signal c i = 1) ∧
       (position c i = some (-1) ↔ signal c (i - 1) = 1 ∧ signal c i = 0))) := by
  refine ⟨signal_eq_zero_of_lt c 49 (by norm_num),
    fun i h50 hi => signal_eq_cmp c i hlen h50 hi, ?_⟩
  intro i hi
  rw [position_eq_diff c i hlen hi]
  rcases signal_eq_zero_or_one c i with h1 | h1 <;>
    rcases signal_eq_zero_or_one c (i - 1) with h2 | h2 <;>
    rw [h1, h2] <;>
    norm_num [Option.some.injEq]

attribute [local semireducible] Rat.add Rat.mul Rat.inv Rat.sub in
/-- C1 witness: the series `1, ..., 51` with the transition at bar 50. -/
theorem detector_forced_initial_state_witness :
    signal c51 49 = 0 ∧
    signal c51 50 = (if smaAt c51 50 50 < smaAt c51 18 50 then 1 else 0) ∧
    (position c51 50 = some 1 ↔ signal c51 49 = 0 ∧ signal c51 50 = 1) :=
  ⟨(detector_forced_initial_state c51 (by decide)).1,
   (detector_forced_initial_state c51 (by decide)).2.1 50 (le_refl 50) (by decide),
   ((detector_forced_initial_state c51 (by decide)).2.2 50 (by norm_num)).1⟩

attribute [local semireducible] Rat.add Rat.mul Rat.inv Rat.sub in
/-- C1 counterexample: on the strictly increasing series `1, ..., 51`, the
first bar at which both SMAs are defined (bar 49) compares Bullish, and bar 50
compares Bullish as well — the comparison never flips — yet the detector's
state at bar 49 is `0` (Bearish, not the direct comparison) and a `BuyCross`
event is emitted at bar 50. -/
theorem event_emitted_without_flip :
    trendState c51 49 = some true ∧ signal c51 49 = 0 ∧
    trendState c51 50 = some true ∧ position c51 50 = some 1 := by
  refine ⟨by decide, by decide, by decide, by decide⟩

end App
